import Mathlib

/-!
Shallow embedding of the core of rileyjshaw/ca-finder-gpu (src/main.js and
src/util.js): a GPU-resident cellular-automaton simulator.  Machine reals
(JS doubles, GLSL floats) are modelled as rationals, JS `Math.floor` as
`Int.floor`, GLSL 32-bit unsigned arithmetic with an explicit mod 2^32, and
`Math.random()` as an abstract stream of rationals in [0, 1).  Textures are
modelled as functions from cell coordinates to state indices, and the GLSL
`texture(...)` call with `fract`-wrapped coordinates and NEAREST filtering
is modelled exactly as floor of the wrapped coordinate times the size.
-/

namespace CAFinder

/-- Source src/main.js: `const MAX_WEIGHT = 1.5`. -/
def MAX_WEIGHT : ℚ := 3 / 2

/-- Source src/main.js: `const MAX_N_STATES = 128`. -/
def MAX_N_STATES : ℕ := 128

/-- Source src/main.js: `const MAX_NEIGHBOR_RANGE = 11`. -/
def MAX_NEIGHBOR_RANGE : ℕ := 11

/-- Source src/main.js: `const MAX_N_RULES = Math.floor(MAX_WEIGHT *
(Math.pow(MAX_NEIGHBOR_RANGE * 2 + 1, 2) - 1) + 1)`. -/
def MAX_N_RULES : ℕ :=
  (⌊MAX_WEIGHT * (((MAX_NEIGHBOR_RANGE : ℚ) * 2 + 1) ^ 2 - 1) + 1⌋).toNat

/-- A random stream is valid when each draw of `Math.random()` lies in
[0, 1). -/
def ValidRand (r : ℕ → ℚ) : Prop := ∀ i, 0 ≤ r i ∧ r i < 1

/-- Source src/main.js `updateUniforms`: `const nNeighbors =
Math.pow(neighborRange * 2 + 1, 2) - 1`; the Moore-neighborhood count, used
for both neighborhood shapes. -/
def nNeighborsOf (neighborRange : ℕ) : ℕ := (neighborRange * 2 + 1) ^ 2 - 1

/-- Source src/main.js `updateUniforms`: the reduce over
`weights.slice(0, nStates)` that accumulates `minWeight`, starting from
`Infinity` (modelled as `none`). -/
def minWeightFold (ws : List ℚ) : Option ℚ :=
  ws.foldl (fun acc w => match acc with | none => some w | some m => some (min m w)) none

/-- Source src/main.js `updateUniforms`: the reduce over
`weights.slice(0, nStates)` that accumulates `maxWeight`, starting from
`-Infinity` (modelled as `none`). -/
def maxWeightFold (ws : List ℚ) : Option ℚ :=
  ws.foldl (fun acc w => match acc with | none => some w | some m => some (max m w)) none

/-- Source src/main.js `updateUniforms`: `minNeighborWeight =
Math.floor(minWeight * nNeighbors)` where `minWeight` ranges over the first
`nStates` weight entries.  The `none` fallback 0 is never reached for
`0 < nStates`. -/
def minNeighborWeightOf (R nStates : ℕ) (weights : List ℚ) : ℤ :=
  ⌊((minWeightFold (weights.take nStates)).getD 0) * (nNeighborsOf R : ℚ)⌋

/-- Source src/main.js `updateUniforms`: `const maxNeighborWeight =
Math.floor(maxWeight * nNeighbors)`. -/
def maxNeighborWeightOf (R nStates : ℕ) (weights : List ℚ) : ℤ :=
  ⌊((maxWeightFold (weights.take nStates)).getD 0) * (nNeighborsOf R : ℚ)⌋

/-- Source src/main.js `updateUniforms`: `const nRules = maxNeighborWeight -
minNeighborWeight + 1`. -/
def nRulesOf (R nStates : ℕ) (weights : List ℚ) : ℤ :=
  maxNeighborWeightOf R nStates weights - minNeighborWeightOf R nStates weights + 1

/-- Source src/main.js `updateUniforms`: one entry of `newRules`:
`if (i < nStates && cellInertia < 1) return i + 1; return Math.random() <
cellInertia ? 0 : Math.floor(Math.random() * (nStates + 1))`.  The stream
`r` supplies the two potential `Math.random()` draws of entry `i` at
positions `2 * i` and `2 * i + 1`. -/
def genRule (nStates : ℕ) (cellInertia : ℚ) (r : ℕ → ℚ) (i : ℕ) : ℕ :=
  if i < nStates ∧ cellInertia < 1 then i + 1
  else if r (2 * i) < cellInertia then 0
  else (⌊r (2 * i + 1) * ((nStates : ℚ) + 1)⌋).toNat

/-- Source src/main.js `updateUniforms`: `const newRules =
Array.from({ length: nRules }, (_, i) => ...)`. -/
def newRulesList (len nStates : ℕ) (cellInertia : ℚ) (r : ℕ → ℚ) : List ℕ :=
  (List.range len).map (genRule nStates cellInertia r)

/-- ECMAScript `%TypedArray%.set(source, offset)` on a `Uint8Array` target:
when `source.length + offset` exceeds the target length it throws a
RangeError before writing any element; otherwise it overwrites the target
elementwise, converting each value to an unsigned 8-bit integer. -/
def typedArraySet (target source : List ℕ) (offset : ℕ) : Except Unit (List ℕ) :=
  if source.length + offset ≤ target.length then
    Except.ok ((List.range target.length).map (fun i =>
      if offset ≤ i ∧ i < offset + source.length then source.getD (i - offset) 0 % 256
      else target.getD i 0))
  else Except.error ()

/-- The observable outcome of one `updateUniforms()` call: whether
`showError()` fired, the stored `rules` Uint8Array afterwards, and the new
module-level `minNeighborWeight`. -/
structure UniformResult where
  errorShown : Bool
  rules : List ℕ
  minNW : ℤ

/-- Source src/main.js `updateUniforms` (lines 789-816).  Derives
`nNeighbors`, `minNeighborWeight`, `maxNeighborWeight` and `nRules` from
the first `nStates` weights, flags the capacity-overflow error when
`nRules > MAX_N_RULES`, generates `newRules`, shuffles it, and stores it
with `rules.set(newRules, 0)` into the `Uint8Array` of length
`MAX_N_RULES` (`oldRules`); the overflowing `set` throws a RangeError and
leaves the stored table untouched.

Modelled from the spec: `shuffleArray` is imported from src/util.js but the
function is absent from the source tree; the spec (section 4.2) says rule
generation applies "a uniform random permutation (shuffle) to the entire
entry sequence", so the shuffle is taken as the parameter `shuffle`, which
the theorems constrain to return a permutation of its argument. -/
def updateUniforms (R nStates : ℕ) (cellInertia : ℚ) (weights : List ℚ)
    (r : ℕ → ℚ) (shuffle : List ℕ → List ℕ) (oldRules : List ℕ) : UniformResult :=
  let nR := nRulesOf R nStates weights
  let err := decide (nR > (MAX_N_RULES : ℤ))
  let newRules := shuffle (newRulesList nR.toNat nStates cellInertia r)
  match typedArraySet oldRules newRules 0 with
  | Except.ok newStored => ⟨err, newStored, minNeighborWeightOf R nStates weights⟩
  | Except.error _ => ⟨err, oldRules, minNeighborWeightOf R nStates weights⟩

/-- The property the theorems require of the spec-modelled `shuffle`
parameter: shuffling returns a permutation of its input. -/
def IsShuffle (shuffle : List ℕ → List ℕ) : Prop := ∀ l : List ℕ, (shuffle l).Perm l

/-- The GLSL 32-bit unsigned modulus, 2 ^ 32, written as a literal so that
`omega` can reason about it. -/
def two32 : ℕ := 4294967296

/-- GLSL 32-bit unsigned subtraction `a - b` on `uint` values. -/
def uintSub (a b : ℕ) : ℕ := (a % two32 + (two32 - b % two32)) % two32

/-- GLSL `uint(x)` conversion of a nonnegative float: truncation, which for
nonnegative arguments is the floor.  (Negative arguments are undefined in
GLSL; `Int.toNat` sends them to 0 here.) -/
def toUint32 (q : ℚ) : ℕ := (⌊q⌋).toNat % two32

/-- The `uint` value received by a GLSL uniform fed from a JS integer:
reduction mod 2 ^ 32. -/
def intToUint32 (z : ℤ) : ℕ := (z % (two32 : ℤ)).toNat

/-- Texture coordinate of the center of texel `i` on an axis with `size`
texels: the interpolated `v_texCoord` at that fragment. -/
def texCenter (size i : ℕ) : ℚ := ((i : ℚ) + 1 / 2) / (size : ℚ)

/-- Source src/main.js update shader, `getState(coord)`: wrap both texture
coordinates with `fract` and sample `u_currentStateTexture` (a `W` by `H`
grid of states) with NEAREST filtering. -/
def getState (g : ℕ → ℕ → ℕ) (W H : ℕ) (x y : ℚ) : ℕ :=
  g ((⌊Int.fract x * (W : ℚ)⌋).toNat) ((⌊Int.fract y * (H : ℚ)⌋).toNat)

/-- The values taken by one loop variable of the update shader double loop:
`dx` runs over -R, ..., R. -/
def offsetRange (R : ℕ) : List ℤ :=
  (List.range (2 * R + 1)).map (fun (k : ℕ) => (k : ℤ) - (R : ℤ))

/-- All `(dx, dy)` pairs visited by the update shader double loop. -/
def allOffsets (R : ℕ) : List (ℤ × ℤ) :=
  (offsetRange R).flatMap (fun dx => (offsetRange R).map (fun dy => (dx, dy)))

/-- The `(dx, dy)` pairs that survive the two `continue` statements of the
update shader loop: the center `(0, 0)` is always skipped, and in von
Neumann mode offsets with `abs(dx) + abs(dy) > u_neighborRange` are also
skipped. -/
def includedOffsets (vn : Bool) (R : ℕ) : List (ℤ × ℤ) :=
  (allOffsets R).filter (fun p =>
    if p.1 = 0 ∧ p.2 = 0 then false
    else if vn = true ∧ |p.1| + |p.2| > (R : ℤ) then false
    else true)

/-- GLSL `u_weights[s]`: lookup in the weight uniform array.  An
out-of-range subscript is undefined in GLSL and modelled as 0; all reads in
the program use state indices below `nStates`. -/
def weightAt (ws : List ℚ) (s : ℕ) : ℚ := ws.getD s 0

/-- The inputs of one update-shader invocation: texture dimensions, the
uniforms, and the two pass parameters baked into the shader source
(`gridSize` and `canvasOffset` from `stackedUpdates`). -/
structure ShaderEnv where
  W : ℕ
  H : ℕ
  weights : List ℚ
  rules : List ℕ
  minNW : ℤ
  vonNeumann : Bool
  neighborRange : ℕ
  gridSize : ℚ
  canvasOffset : ℚ

/-- Source src/main.js update shader: the accumulated neighbor weight sum
of the fragment at texel `(i, j)`: over every non-skipped loop offset, add
`u_weights[getState(v_texCoord + canvasOffset + vec2(dx, dy) * onePixel)]`
where `onePixel = vec2(gridSize) / u_resolution` and
`canvasOffset = u_resolution * c`. -/
def neighborSum (e : ShaderEnv) (g : ℕ → ℕ → ℕ) (i j : ℕ) : ℚ :=
  ((includedOffsets e.vonNeumann e.neighborRange).map (fun p =>
    weightAt e.weights (getState g e.W e.H
      (texCenter e.W i + (e.W : ℚ) * e.canvasOffset + (p.1 : ℚ) * (e.gridSize / (e.W : ℚ)))
      (texCenter e.H j + (e.H : ℚ) * e.canvasOffset + (p.2 : ℚ) * (e.gridSize / (e.H : ℚ)))))).sum

/-- Source src/main.js update shader: `uint ruleIndex = uint(sum) -
u_minNeighborWeight`, in 32-bit unsigned arithmetic, with no clamping. -/
def ruleIndexAt (e : ShaderEnv) (g : ℕ → ℕ → ℕ) (i j : ℕ) : ℕ :=
  uintSub (toUint32 (neighborSum e g i j)) (intToUint32 e.minNW)

/-- Source src/main.js update shader `main()` at texel `(i, j)`: read the
current state, compute the rule index from the neighbor sum, look up
`u_rules[ruleIndex]`, and either keep the state (entry 0) or move to
`entry - 1`. -/
def updateCell (e : ShaderEnv) (g : ℕ → ℕ → ℕ) (i j : ℕ) : ℕ :=
  let state := getState g e.W e.H (texCenter e.W i) (texCenter e.H j)
  let newState := e.rules.getD (ruleIndexAt e g i j) 0
  if newState = 0 then state else newState - 1

/-- One full update pass: every fragment (cell) is computed independently
from the read texture `g`; the result is the written texture. -/
def updatePass (e : ShaderEnv) (g : ℕ → ℕ → ℕ) : ℕ → ℕ → ℕ :=
  fun i j => updateCell e g i j

/-- Source src/main.js `getRandomTextureData(width, height)`: a fresh
randomly seeded grid; the Uint8Array byte backing cell `(x, y)` has index
`y * width + x` and holds `Math.floor(Math.random() * nStates)`. -/
def getRandomTextureData (W nStates : ℕ) (r : ℕ → ℚ) : ℕ → ℕ → ℕ :=
  fun x y => (⌊r (y * W + x) * (nStates : ℚ)⌋).toNat % 256

/-- Source src/main.js: `const stackedUpdates = [[1], [1, 0.25]]`: the
`(gridSize, canvasOffset)` arguments of the stacked update passes, with
the default `canvasOffset = 0.0` filled in for the first pass. -/
def stackedUpdates : List (ℚ × ℚ) := [(1, 0), (1, 1 / 4)]

/-- The module-level mutable state the render loop touches: the two
ping-pong textures, `nextStateTextureIndex` (a Bool: `false` is index 0),
`isPaused`, and the current canvas (drawing-buffer) dimensions. -/
structure RenderState where
  tex0 : ℕ → ℕ → ℕ
  tex1 : ℕ → ℕ → ℕ
  nextIdx : Bool
  isPaused : Bool
  canvasW : ℕ
  canvasH : ℕ

/-- The texture at ping-pong position `b` (`false` is `textures[0]`). -/
def texAt (s : RenderState) (b : Bool) : ℕ → ℕ → ℕ :=
  if b then s.tex1 else s.tex0

/-- The per-tick external inputs: the display size that
`twgl.resizeCanvasToDisplaySize(gl.canvas, resolutionMultiplier)` would set
(CSS size times the resolution multiplier), and the `Math.random()` streams
consumed by the two `createRandomTexture` calls if buffers are rebuilt. -/
structure TickInput where
  displayW : ℕ
  displayH : ℕ
  rA : ℕ → ℚ
  rB : ℕ → ℚ

/-- The simulation configuration read by the shader uniforms during one
tick (module variables of src/main.js). -/
structure SimConfig where
  weights : List ℚ
  rules : List ℕ
  minNW : ℤ
  vonNeumann : Bool
  neighborRange : ℕ
  nStates : ℕ
  colors : List (ℚ × ℚ × ℚ)

/-- Source src/main.js `resize()`: if `resizeCanvasToDisplaySize` changed
the canvas size, `initBuffers()` deletes and recreates both textures with
fresh random contents (the ping-pong index is not touched). -/
def resizeStep (nStates : ℕ) (inp : TickInput) (s : RenderState) : RenderState :=
  if inp.displayW = s.canvasW ∧ inp.displayH = s.canvasH then s
  else { s with
    canvasW := inp.displayW
    canvasH := inp.displayH
    tex0 := getRandomTextureData inp.displayW nStates inp.rA
    tex1 := getRandomTextureData inp.displayW nStates inp.rB }

/-- The shader environment of one update pass during a tick: uniforms from
the configuration, resolution from the canvas, pass parameters from
`stackedUpdates`. -/
def envFor (cfg : SimConfig) (s : RenderState) (p : ℚ × ℚ) : ShaderEnv :=
  ⟨s.canvasW, s.canvasH, cfg.weights, cfg.rules, cfg.minNW, cfg.vonNeumann,
    cfg.neighborRange, p.1, p.2⟩

/-- Source src/main.js `runUpdateShader`: bind the framebuffer of
`textures[nextStateTextureIndex]`, read `textures[1 - nextStateTextureIndex]`
(the current state), and draw: the inactive texture now holds the update
pass output; the read texture is untouched. -/
def runUpdateShader (cfg : SimConfig) (p : ℚ × ℚ) (s : RenderState) : RenderState :=
  let dst := updatePass (envFor cfg s p) (texAt s (!s.nextIdx))
  if s.nextIdx then { s with tex1 := dst } else { s with tex0 := dst }

/-- Source src/main.js `render`, step 1: while not paused, run every
stacked update pass in order, flipping `nextStateTextureIndex` after
each. -/
def updatePhase (cfg : SimConfig) (s : RenderState) : RenderState :=
  stackedUpdates.foldl
    (fun st p =>
      let st1 := runUpdateShader cfg p st
      { st1 with nextIdx := !st1.nextIdx })
    s

/-- Source src/main.js display shader: every pixel reads the final
texture (`textures[1 - nextStateTextureIndex]`) and maps the state through
`u_colors`. -/
def displayPhase (cfg : SimConfig) (s : RenderState) : ℕ → ℕ → ℚ × ℚ × ℚ :=
  fun x y => cfg.colors.getD (texAt s (!s.nextIdx) x y) (0, 0, 0)

/-- Source src/main.js `render(time)` (lines 949-978), one tick: poll for
resize (always), run the stacked update passes only when not paused, and
run the display stage (always).  Returns the new module state and the
displayed frame.  The next tick is scheduled unconditionally via
`requestAnimationFrame`. -/
def tick (cfg : SimConfig) (inp : TickInput) (s : RenderState) :
    RenderState × (ℕ → ℕ → ℚ × ℚ × ℚ) :=
  let s1 := resizeStep cfg.nStates inp s
  let s2 := if s1.isPaused then s1 else updatePhase cfg s1
  (s2, displayPhase cfg s2)

/-- A run of consecutive ticks, each with its own external input. -/
def iterTicks (cfg : SimConfig) (inps : List TickInput) (s : RenderState) : RenderState :=
  inps.foldl (fun st inp => (tick cfg inp st).1) s

/-- Modelled from the spec: `generateFurthestSubsequentDistanceArray` is
imported from src/util.js but the function is absent from the source tree.
Spec section 4.1 describes it as "a maximally-spread fractional sequence
(successive values chosen to maximize distance from all previously chosen
values, scaled into [0, maxWeight])", and src/main.js labels the result
`0, 1, ½, ¾, ...`.  Entry 0 is `lo`, entry 1 is `hi`, and entry
`n >= 2` bisects the widest remaining gap, sweeping each dyadic level from
the high end down (matching the label): with `n - 1 = 2 ^ k + j` for
`0 <= j < 2 ^ k`, entry `n` sits at fraction
`(2 * (2 ^ k - 1 - j) + 1) / 2 ^ (k + 1)` of the interval. -/
def furthestSubsequentDistance (lo hi : ℚ) : ℕ → ℚ
  | 0 => lo
  | 1 => hi
  | n + 2 =>
    let m := n + 1
    let k := Nat.log 2 m
    let j := m - 2 ^ k
    lo + (hi - lo) * (((2 * (2 ^ k - 1 - j) + 1 : ℕ) : ℚ) / ((2 ^ (k + 1) : ℕ) : ℚ))

/-- Source src/main.js `updateWeights`, case 2: the tiled ramp pattern
`[0, 0.5, 1, 0.5, 0].map(n => n * MAX_WEIGHT)`. -/
def rampPattern : List ℚ := [0, 1 / 2, 1, 1 / 2, 0].map (fun n => n * MAX_WEIGHT)

/-- Source src/main.js `updateWeights`: the four weight-distribution
strategies, as the value written to `weights[i]` when the selected
strategy index is `k` (the source reduces the index mod
`N_WEIGHT_DISTRIBUTIONS = 4`).  Strategy 0 alternates 0 and `MAX_WEIGHT`;
strategy 1 is the maximally-spread sequence over `[0, MAX_WEIGHT]`;
strategy 2 tiles the ramp pattern; strategy 3 draws
`Math.random() * MAX_WEIGHT` independently per entry. -/
def updateWeights (k : ℕ) (r : ℕ → ℚ) (i : ℕ) : ℚ :=
  match k % 4 with
  | 0 => ((i % 2 : ℕ) : ℚ) * MAX_WEIGHT
  | 1 => furthestSubsequentDistance 0 MAX_WEIGHT i
  | 2 => rampPattern.getD (i % rampPattern.length) 0
  | _ => r i * MAX_WEIGHT

/-! ### Concrete instances used to evaluate the definitions -/

/-- A von Neumann shader environment with neighbor range 2, two states of
weight 1 each (so `minNeighborWeight = 24` by the Moore formula) on an
8 by 8 grid, first stacked pass parameters. -/
def vnEnv : ShaderEnv :=
  ⟨8, 8, [1, 1], List.replicate MAX_N_RULES 0, minNeighborWeightOf 2 2 [1, 1],
    true, 2, 1, 0⟩

/-- A Moore shader environment with neighbor range 1 and one state of
weight 1 (so `minNeighborWeight = 8`). -/
def mooreEnv : ShaderEnv :=
  ⟨4, 4, [1], List.replicate MAX_N_RULES 0, minNeighborWeightOf 1 1 [1],
    false, 1, 1, 0⟩

/-- A paused render state over a 1 by 1 canvas whose two textures are
identically 0. -/
def pausedState : RenderState := ⟨fun _ _ => 0, fun _ _ => 0, false, true, 1, 1⟩

/-- A tick input whose display size 2 by 2 differs from the canvas of
`pausedState`, forcing a buffer reallocation. -/
def resizeInput : TickInput := ⟨2, 2, fun _ => 9 / 10, fun _ => 0⟩

/-- A tick input whose display size matches the canvas of `pausedState`. -/
def steadyInput : TickInput := ⟨1, 1, fun _ => 0, fun _ => 0⟩

/-- A minimal simulation configuration with 8 states. -/
def cfg0 : SimConfig := ⟨[], List.replicate MAX_N_RULES 0, 0, false, 1, 8, []⟩

/-! ### Helper lemmas about the min and max weight folds -/

lemma foldl_minStep_some (l : List ℚ) (a : ℚ) :
    l.foldl (fun acc w => match acc with | none => some w | some m => some (min m w)) (some a)
      = some (l.foldl min a) := by
  induction l generalizing a with
  | nil => rfl
  | cons b t ih => simpa using ih (min a b)

lemma foldl_maxStep_some (l : List ℚ) (a : ℚ) :
    l.foldl (fun acc w => match acc with | none => some w | some m => some (max m w)) (some a)
      = some (l.foldl max a) := by
  induction l generalizing a with
  | nil => rfl
  | cons b t ih => simpa using ih (max a b)

lemma minWeightFold_cons (a : ℚ) (l : List ℚ) :
    minWeightFold (a :: l) = some (l.foldl min a) := by
  simp only [minWeightFold, List.foldl_cons]
  exact foldl_minStep_some l a

lemma maxWeightFold_cons (a : ℚ) (l : List ℚ) :
    maxWeightFold (a :: l) = some (l.foldl max a) := by
  simp only [maxWeightFold, List.foldl_cons]
  exact foldl_maxStep_some l a

lemma foldl_min_le_init (l : List ℚ) (a : ℚ) : l.foldl min a ≤ a := by
  induction l generalizing a with
  | nil => simp
  | cons b t ih => exact le_trans (ih (min a b)) (min_le_left a b)

lemma foldl_min_le_mem (l : List ℚ) (a x : ℚ) (hx : x ∈ l) : l.foldl min a ≤ x := by
  induction l generalizing a with
  | nil => cases hx
  | cons b t ih =>
    rcases List.mem_cons.mp hx with h | h
    · subst h
      exact le_trans (foldl_min_le_init t (min a x)) (min_le_right a x)
    · exact ih (min a b) h

lemma le_foldl_min (l : List ℚ) (a c : ℚ) (ha : c ≤ a) (h : ∀ x ∈ l, c ≤ x) :
    c ≤ l.foldl min a := by
  induction l generalizing a with
  | nil => simpa
  | cons b t ih =>
    exact ih (min a b) (le_min ha (h b (List.mem_cons_self b t)))
      (fun x hx => h x (List.mem_cons_of_mem b hx))

lemma init_le_foldl_max (l : List ℚ) (a : ℚ) : a ≤ l.foldl max a := by
  induction l generalizing a with
  | nil => simp
  | cons b t ih => exact le_trans (le_max_left a b) (ih (max a b))

lemma mem_le_foldl_max (l : List ℚ) (a x : ℚ) (hx : x ∈ l) : x ≤ l.foldl max a := by
  induction l generalizing a with
  | nil => cases hx
  | cons b t ih =>
    rcases List.mem_cons.mp hx with h | h
    · subst h
      exact le_trans (le_max_right a x) (init_le_foldl_max t (max a x))
    · exact ih (max a b) h

lemma foldl_max_le (l : List ℚ) (a c : ℚ) (ha : a ≤ c) (h : ∀ x ∈ l, x ≤ c) :
    l.foldl max a ≤ c := by
  induction l generalizing a with
  | nil => simpa
  | cons b t ih =>
    exact ih (max a b) (max_le ha (h b (List.mem_cons_self b t)))
      (fun x hx => h x (List.mem_cons_of_mem b hx))

lemma minWeightFold_le (l : List ℚ) (hne : l ≠ []) (x : ℚ) (hx : x ∈ l) :
    (minWeightFold l).getD 0 ≤ x := by
  obtain ⟨a, t, rfl⟩ := List.exists_cons_of_ne_nil hne
  rw [minWeightFold_cons, Option.getD_some]
  rcases List.mem_cons.mp hx with h | h
  · subst h
    exact foldl_min_le_init t x
  · exact foldl_min_le_mem t a x h

lemma le_maxWeightFold (l : List ℚ) (hne : l ≠ []) (x : ℚ) (hx : x ∈ l) :
    x ≤ (maxWeightFold l).getD 0 := by
  obtain ⟨a, t, rfl⟩ := List.exists_cons_of_ne_nil hne
  rw [maxWeightFold_cons, Option.getD_some]
  rcases List.mem_cons.mp hx with h | h
  · subst h
    exact init_le_foldl_max t x
  · exact mem_le_foldl_max t a x h

lemma le_minWeightFold (l : List ℚ) (hne : l ≠ []) (c : ℚ) (h : ∀ x ∈ l, c ≤ x) :
    c ≤ (minWeightFold l).getD 0 := by
  obtain ⟨a, t, rfl⟩ := List.exists_cons_of_ne_nil hne
  rw [minWeightFold_cons, Option.getD_some]
  exact le_foldl_min t a c (h a (List.mem_cons_self a t))
    (fun x hx => h x (List.mem_cons_of_mem a hx))

lemma minWeightFold_le_maxWeightFold (l : List ℚ) (hne : l ≠ []) :
    (minWeightFold l).getD 0 ≤ (maxWeightFold l).getD 0 := by
  obtain ⟨a, t, rfl⟩ := List.exists_cons_of_ne_nil hne
  exact le_trans (minWeightFold_le (a :: t) (by simp) a (List.mem_cons_self a t))
    (le_maxWeightFold (a :: t) (by simp) a (List.mem_cons_self a t))

/-! ### Helper lemmas: GLSL uint arithmetic, list access, rule entries -/

lemma uintSub_eq_sub (a b : ℕ) (hb : b ≤ a) (ha : a < two32) : uintSub a b = a - b := by
  unfold uintSub two32 at *
  omega

lemma getD_range_map (f : ℕ → ℕ) (n i : ℕ) (h : i < n) :
    ((List.range n).map f).getD i 0 = f i := by
  simp [List.getD_eq_getElem?_getD, List.getElem?_map, List.getElem?_range, h]

lemma getD_mem_of_lt {α : Type} (l : List α) (i : ℕ) (h : i < l.length) (d : α) :
    l.getD i d ∈ l := by
  rw [List.getD_eq_getElem?_getD, List.getElem?_eq_getElem h]
  simp [List.getElem_mem]

lemma getD_replicate_zero (n idx : ℕ) : (List.replicate n (0 : ℕ)).getD idx 0 = 0 := by
  rw [List.getD_eq_getElem?_getD, List.getElem?_replicate]
  split <;> rfl

lemma updateCell_eq (e : ShaderEnv) (g : ℕ → ℕ → ℕ) (i j : ℕ) :
    updateCell e g i j
      = if e.rules.getD (ruleIndexAt e g i j) 0 = 0
        then getState g e.W e.H (texCenter e.W i) (texCenter e.H j)
        else e.rules.getD (ruleIndexAt e g i j) 0 - 1 := rfl

lemma genRule_le (nStates : ℕ) (ci : ℚ) (r : ℕ → ℚ) (hr : ValidRand r) (i : ℕ) :
    genRule nStates ci r i ≤ nStates := by
  unfold genRule
  split
  · next h => exact h.1
  · split
    · exact Nat.zero_le _
    · have hlt : r (2 * i + 1) * ((nStates : ℚ) + 1) < (nStates : ℚ) + 1 := by
        have h1 := (hr (2 * i + 1)).2
        have h0 : (0 : ℚ) < (nStates : ℚ) + 1 := by positivity
        calc r (2 * i + 1) * ((nStates : ℚ) + 1) < 1 * ((nStates : ℚ) + 1) := by
              exact mul_lt_mul_of_pos_right h1 h0
          _ = (nStates : ℚ) + 1 := one_mul _
      have hfl : ⌊r (2 * i + 1) * ((nStates : ℚ) + 1)⌋ < (nStates : ℤ) + 1 := by
        rw [Int.floor_lt]
        push_cast
        exact hlt
      omega

/-! ### Helper lemmas about the update-shader loop offsets -/

lemma length_offsetRange (R : ℕ) : (offsetRange R).length = 2 * R + 1 := by
  simp [offsetRange]

lemma mem_offsetRange (R : ℕ) (z : ℤ) : z ∈ offsetRange R ↔ -(R : ℤ) ≤ z ∧ z ≤ R := by
  simp only [offsetRange, List.mem_map, List.mem_range]
  constructor
  · rintro ⟨k, hk, rfl⟩
    omega
  · rintro ⟨h1, h2⟩
    exact ⟨(z + R).toNat, by omega, by omega⟩

lemma nodup_offsetRange (R : ℕ) : (offsetRange R).Nodup := by
  refine List.Nodup.map ?_ (List.nodup_range _)
  intro a b h
  have h2 : (a : ℤ) - R = (b : ℤ) - R := h
  omega

lemma sum_map_const_nat {α : Type} (l : List α) (c : ℕ) :
    (l.map (fun _ => c)).sum = l.length * c := by
  induction l with
  | nil => simp
  | cons a t ih => simp [ih, Nat.succ_mul, Nat.add_comm]

lemma length_allOffsets (R : ℕ) : (allOffsets R).length = (2 * R + 1) ^ 2 := by
  rw [allOffsets, List.length_flatMap]
  simp only [Function.comp_def, List.length_map, length_offsetRange]
  rw [sum_map_const_nat, length_offsetRange]
  ring

lemma nodup_allOffsets (R : ℕ) : (allOffsets R).Nodup := by
  refine List.nodup_flatMap.mpr ⟨?_, ?_⟩
  · intro dx _
    refine List.Nodup.map ?_ (nodup_offsetRange R)
    intro a b h
    exact (Prod.mk.injEq _ _ _ _).mp h |>.2
  · refine List.Pairwise.imp ?_ (nodup_offsetRange R)
    intro a b hne p hpa hpb
    obtain ⟨dya, _, rfl⟩ := List.mem_map.mp hpa
    obtain ⟨dyb, _, heq⟩ := List.mem_map.mp hpb
    exact hne ((Prod.mk.injEq _ _ _ _).mp heq.symm |>.1)

lemma mem_allOffsets (R : ℕ) (p : ℤ × ℤ) :
    p ∈ allOffsets R ↔ -(R : ℤ) ≤ p.1 ∧ p.1 ≤ R ∧ -(R : ℤ) ≤ p.2 ∧ p.2 ≤ R := by
  obtain ⟨a, b⟩ := p
  simp only [allOffsets, List.mem_flatMap, List.mem_map, mem_offsetRange]
  constructor
  · rintro ⟨dx, hdx, dy, hdy, heq⟩
    obtain ⟨rfl, rfl⟩ := (Prod.mk.injEq _ _ _ _).mp heq
    exact ⟨hdx.1, hdx.2, hdy.1, hdy.2⟩
  · rintro ⟨h1, h2, h3, h4⟩
    exact ⟨a, ⟨h1, h2⟩, b, ⟨h3, h4⟩, rfl⟩

lemma center_mem_allOffsets (R : ℕ) : ((0 : ℤ), (0 : ℤ)) ∈ allOffsets R := by
  rw [mem_allOffsets]
  refine ⟨by omega, by omega, by omega, by omega⟩

lemma includedOffsets_false_eq_erase (R : ℕ) :
    includedOffsets false R = (allOffsets R).erase ((0 : ℤ), (0 : ℤ)) := by
  rw [List.Nodup.erase_eq_filter (nodup_allOffsets R)]
  unfold includedOffsets
  apply List.filter_congr
  intro p _
  by_cases h : p.1 = 0 ∧ p.2 = 0
  · have hp : p = ((0 : ℤ), (0 : ℤ)) := Prod.ext h.1 h.2
    simp [h, hp]
  · have hp : p ≠ ((0 : ℤ), (0 : ℤ)) := by
      intro hc
      exact h (by rw [hc]; exact ⟨rfl, rfl⟩)
    simp [h]
    exact hp

lemma length_includedOffsets_false (R : ℕ) :
    (includedOffsets false R).length = nNeighborsOf R := by
  rw [includedOffsets_false_eq_erase,
    List.length_erase_of_mem (center_mem_allOffsets R), length_allOffsets]
  unfold nNeighborsOf
  have h : 2 * R + 1 = R * 2 + 1 := by ring
  rw [h]

lemma mem_includedOffsets_true (R : ℕ) (p : ℤ × ℤ) :
    p ∈ includedOffsets true R ↔
      p ∈ includedOffsets false R ∧ |p.1| + |p.2| ≤ (R : ℤ) := by
  unfold includedOffsets
  simp only [List.mem_filter]
  constructor
  · rintro ⟨hmem, hpred⟩
    by_cases hc : p.1 = 0 ∧ p.2 = 0
    · simp [hc] at hpred
    · by_cases habs : |p.1| + |p.2| > (R : ℤ)
      · simp [hc, habs] at hpred
      · exact ⟨⟨hmem, by simp [hc]⟩, by omega⟩
  · rintro ⟨⟨hmem, hpred⟩, habs⟩
    by_cases hc : p.1 = 0 ∧ p.2 = 0
    · simp [hc] at hpred
    · refine ⟨hmem, ?_⟩
      have habs2 : ¬(|p.1| + |p.2| > (R : ℤ)) := by omega
      simp [hc, habs2]

/-! ### Helper lemmas about fract-wrapped NEAREST sampling -/

lemma fract_texel_shift (W : ℕ) (hW : 0 < W) (i : ℕ) (dx : ℤ) :
    Int.fract ((((i : ℚ) + 1 / 2) + (dx : ℚ)) / (W : ℚ))
      = (((((i : ℤ) + dx) % (W : ℤ) : ℤ) : ℚ) + 1 / 2) / (W : ℚ) := by
  have hWQ : (0 : ℚ) < (W : ℚ) := by exact_mod_cast hW
  have hWne : (W : ℚ) ≠ 0 := ne_of_gt hWQ
  set n : ℤ := (i : ℤ) + dx with hn
  have hmod : n % (W : ℤ) + (W : ℤ) * (n / (W : ℤ)) = n := Int.emod_add_ediv n W
  have hmodQ : (((n % (W : ℤ)) : ℤ) : ℚ) + (W : ℚ) * (((n / (W : ℤ)) : ℤ) : ℚ)
      = ((n : ℤ) : ℚ) := by
    exact_mod_cast congrArg (fun z : ℤ => (z : ℚ)) hmod
  have hnQ : ((n : ℤ) : ℚ) = (i : ℚ) + (dx : ℚ) := by
    rw [hn]
    push_cast
    ring
  have key : (((i : ℚ) + 1 / 2) + (dx : ℚ)) / (W : ℚ)
      = ((((n % (W : ℤ)) : ℤ) : ℚ) + 1 / 2) / (W : ℚ) + (((n / (W : ℤ)) : ℤ) : ℚ) := by
    field_simp
    linarith [hmodQ, hnQ]
  rw [key]
  have hint : ∃ z : ℤ, (((n / (W : ℤ)) : ℤ) : ℚ) = (z : ℚ) := ⟨n / (W : ℤ), rfl⟩
  rw [Int.fract_add_int]
  have hge : (0 : ℤ) ≤ n % (W : ℤ) := Int.emod_nonneg n (by omega)
  have hlt : n % (W : ℤ) < (W : ℤ) := Int.emod_lt_of_pos n (by exact_mod_cast hW)
  refine Int.fract_eq_self.mpr ⟨?_, ?_⟩
  · apply div_nonneg ?_ (le_of_lt hWQ)
    have : (0 : ℚ) ≤ (((n % (W : ℤ)) : ℤ) : ℚ) := by exact_mod_cast hge
    linarith
  · rw [div_lt_one hWQ]
    have : (((n % (W : ℤ)) : ℤ) : ℚ) ≤ (W : ℚ) - 1 := by
      have h2 : n % (W : ℤ) ≤ (W : ℤ) - 1 := by omega
      exact_mod_cast h2
    linarith

lemma sample_texel_shift (W : ℕ) (hW : 0 < W) (i : ℕ) (dx : ℤ) :
    (⌊Int.fract ((((i : ℚ) + 1 / 2) + (dx : ℚ)) / (W : ℚ)) * (W : ℚ)⌋).toNat
      = (((i : ℤ) + dx) % (W : ℤ)).toNat := by
  rw [fract_texel_shift W hW i dx]
  have hWQ : (0 : ℚ) < (W : ℚ) := by exact_mod_cast hW
  have hWne : (W : ℚ) ≠ 0 := ne_of_gt hWQ
  set m : ℤ := ((i : ℤ) + dx) % (W : ℤ) with hm
  have hdiv : (((m : ℤ) : ℚ) + 1 / 2) / (W : ℚ) * (W : ℚ) = ((m : ℤ) : ℚ) + 1 / 2 := by
    field_simp
    ring
  rw [hdiv]
  have hfloor : ⌊((m : ℤ) : ℚ) + 1 / 2⌋ = m := by
    refine Int.floor_eq_iff.mpr ⟨by norm_num, ?_⟩
    norm_num
  rw [hfloor]

lemma coord_as_shift (W : ℕ) (hW : 0 < W) (i : ℕ) (dx : ℤ) :
    texCenter W i + (W : ℚ) * 0 + (dx : ℚ) * ((1 : ℚ) / (W : ℚ))
      = (((i : ℚ) + 1 / 2) + (dx : ℚ)) / (W : ℚ) := by
  have hWne : (W : ℚ) ≠ 0 := by
    have : (0 : ℚ) < (W : ℚ) := by exact_mod_cast hW
    exact ne_of_gt this
  unfold texCenter
  field_simp
  ring

/-- The read of a cell at its own coordinate: sampling `v_texCoord`
without any offset returns that cell of the grid. -/
lemma getState_self (g : ℕ → ℕ → ℕ) (W H : ℕ) (hW : 0 < W) (hH : 0 < H)
    (i j : ℕ) (hi : i < W) (hj : j < H) :
    getState g W H (texCenter W i) (texCenter H j) = g i j := by
  have hx : texCenter W i = (((i : ℚ) + 1 / 2) + ((0 : ℤ) : ℚ)) / (W : ℚ) := by
    unfold texCenter
    push_cast
    ring
  have hy : texCenter H j = (((j : ℚ) + 1 / 2) + ((0 : ℤ) : ℚ)) / (H : ℚ) := by
    unfold texCenter
    push_cast
    ring
  unfold getState
  rw [hx, hy, sample_texel_shift W hW i 0, sample_texel_shift H hH j 0]
  have h1 : (((i : ℤ) + 0) % (W : ℤ)).toNat = i := by
    have : ((i : ℤ) + 0) % (W : ℤ) = (i : ℤ) := by
      rw [add_zero]
      exact Int.emod_eq_of_lt (by omega) (by exact_mod_cast hi)
    omega
  have h2 : (((j : ℤ) + 0) % (H : ℤ)).toNat = j := by
    have : ((j : ℤ) + 0) % (H : ℤ) = (j : ℤ) := by
      rw [add_zero]
      exact Int.emod_eq_of_lt (by omega) (by exact_mod_cast hj)
    omega
  rw [h1, h2]

/-! ## Claim theorems -/

/-- C3: For every neighbor range R and both neighborhood shapes, rule-table
derivation uses neighbor count `(2R+1)^2 - 1` (the Moore formula: the update
loop in Moore mode visits exactly that many offsets, and the derived
quantities take no neighborhood-shape input at all), `minNeighborWeight =
floor(minWeight * neighborCount)` and `maxNeighborWeight =
floor(maxWeight * neighborCount)` with min and max taken over only the
first `nStates` weight entries, and rule table length
`maxNeighborWeight - minNeighborWeight + 1`; von Neumann mode excludes
corner offsets only at evaluation time inside the update pass (its visited
offsets are exactly the Moore offsets with `|dx| + |dy| <= R`). -/
theorem ruleTable_derivation_moore_formula (R nStates : ℕ) (ws : List ℚ) :
    nNeighborsOf R = (2 * R + 1) ^ 2 - 1
    ∧ (includedOffsets false R).length = nNeighborsOf R
    ∧ (∀ p : ℤ × ℤ, p ∈ includedOffsets true R ↔
        p ∈ includedOffsets false R ∧ |p.1| + |p.2| ≤ (R : ℤ))
    ∧ minNeighborWeightOf R nStates ws
        = ⌊((minWeightFold (ws.take nStates)).getD 0) * (nNeighborsOf R : ℚ)⌋
    ∧ maxNeighborWeightOf R nStates ws
        = ⌊((maxWeightFold (ws.take nStates)).getD 0) * (nNeighborsOf R : ℚ)⌋
    ∧ nRulesOf R nStates ws
        = maxNeighborWeightOf R nStates ws - minNeighborWeightOf R nStates ws + 1 := by
  refine ⟨?_, length_includedOffsets_false R, mem_includedOffsets_true R, rfl, rfl, rfl⟩
  unfold nNeighborsOf
  congr 1
  ring

/-- C5: In the update step, after the rule entry is looked up, entry 0
keeps the current state `s` and any other entry yields `entry - 1`; the
pass output at `(i, j)` is exactly this per-cell result, and
`runUpdateShader` writes it to the inactive buffer
(`textures[nextStateTextureIndex]`) while leaving the read buffer
untouched. -/
theorem update_step_rule_application (e : ShaderEnv) (g : ℕ → ℕ → ℕ) (i j : ℕ)
    (cfg : SimConfig) (p : ℚ × ℚ) (s : RenderState) :
    (updateCell e g i j
        = if e.rules.getD (ruleIndexAt e g i j) 0 = 0
          then getState g e.W e.H (texCenter e.W i) (texCenter e.H j)
          else e.rules.getD (ruleIndexAt e g i j) 0 - 1)
    ∧ updatePass e g i j = updateCell e g i j
    ∧ texAt (runUpdateShader cfg p s) s.nextIdx
        = updatePass (envFor cfg s p) (texAt s (!s.nextIdx))
    ∧ texAt (runUpdateShader cfg p s) (!s.nextIdx) = texAt s (!s.nextIdx) := by
  refine ⟨rfl, rfl, ?_, ?_⟩ <;>
    · obtain ⟨t0, t1, ni, ip, cw, ch⟩ := s
      cases ni <;> rfl

/-- C6: Neighbor coordinate reads wrap toroidally on both axes: sampling
at the coordinate the update shader uses for offset `(dx, dy)` from the
cell at texel `(i, j)` (first stacked pass: `gridSize = 1`,
`canvasOffset = 0`) resolves to grid cell
`((i + dx) mod W, (j + dy) mod H)`. -/
theorem neighbor_reads_wrap_toroidally (W H : ℕ) (hW : 0 < W) (hH : 0 < H)
    (g : ℕ → ℕ → ℕ) (i j : ℕ) (dx dy : ℤ) :
    getState g W H
      (texCenter W i + (W : ℚ) * 0 + (dx : ℚ) * ((1 : ℚ) / (W : ℚ)))
      (texCenter H j + (H : ℚ) * 0 + (dy : ℚ) * ((1 : ℚ) / (H : ℚ)))
      = g ((((i : ℤ) + dx) % (W : ℤ)).toNat) ((((j : ℤ) + dy) % (H : ℤ)).toNat) := by
  unfold getState
  rw [coord_as_shift W hW i dx, coord_as_shift H hH j dy,
    sample_texel_shift W hW i dx, sample_texel_shift H hH j dy]

/-- C6 witness: on a 4 by 4 grid the cell at (0, 0) reads its (-1, -1)
neighbor from grid cell (3, 3). -/
theorem neighbor_reads_wrap_toroidally_witness :
    (0 : ℕ) < 4
    ∧ getState (fun x y => 4 * y + x) 4 4
        (texCenter 4 0 + ((4 : ℕ) : ℚ) * 0 + (((-1 : ℤ)) : ℚ) * ((1 : ℚ) / ((4 : ℕ) : ℚ)))
        (texCenter 4 0 + ((4 : ℕ) : ℚ) * 0 + (((-1 : ℤ)) : ℚ) * ((1 : ℚ) / ((4 : ℕ) : ℚ)))
      = (fun x y => 4 * y + x) 3 3 := by
  refine ⟨by norm_num, ?_⟩
  have h := neighbor_reads_wrap_toroidally 4 4 (by norm_num) (by norm_num)
    (fun x y => 4 * y + x) 0 0 (-1) (-1)
  have e1 : ((((0 : ℕ) : ℤ) + (-1)) % ((4 : ℕ) : ℤ)).toNat = 3 := by decide
  rw [e1] at h
  exact h

/-- C9: The cell-state range invariant is preserved: random seeding writes
only states below `nStates` to every cell, and the update step, given a
rule table whose entries are at most `nStates` and a read grid whose
states are below `nStates`, produces a state below `nStates` (either the
unchanged current state or `entry - 1`). -/
theorem state_range_invariant :
    (∀ (W nStates : ℕ) (r : ℕ → ℚ), ValidRand r → 0 < nStates →
      ∀ x y, getRandomTextureData W nStates r x y < nStates)
    ∧ (∀ (e : ShaderEnv) (g : ℕ → ℕ → ℕ) (nStates : ℕ),
        (∀ idx, e.rules.getD idx 0 ≤ nStates) →
        (∀ x y, g x y < nStates) →
        ∀ i j, updateCell e g i j < nStates) := by
  constructor
  · intro W nStates r hr h0 x y
    unfold getRandomTextureData
    have hlt : r (y * W + x) * (nStates : ℚ) < (nStates : ℚ) := by
      have h1 := (hr (y * W + x)).2
      have hp : (0 : ℚ) < (nStates : ℚ) := by exact_mod_cast h0
      calc r (y * W + x) * (nStates : ℚ) < 1 * (nStates : ℚ) :=
            mul_lt_mul_of_pos_right h1 hp
        _ = (nStates : ℚ) := one_mul _
    have hfl : ⌊r (y * W + x) * (nStates : ℚ)⌋ < (nStates : ℤ) := by
      rw [Int.floor_lt]
      exact_mod_cast hlt
    have h2 : (⌊r (y * W + x) * (nStates : ℚ)⌋).toNat < nStates := by omega
    exact lt_of_le_of_lt (Nat.mod_le _ _) h2
  · intro e g nStates hrules hg i j
    have hstate : getState g e.W e.H (texCenter e.W i) (texCenter e.H j) < nStates := hg _ _
    have hentry := hrules (ruleIndexAt e g i j)
    rw [updateCell_eq]
    by_cases hz : e.rules.getD (ruleIndexAt e g i j) 0 = 0
    · rw [if_pos hz]
      exact hstate
    · rw [if_neg hz]
      omega

/-- C9 witness: the seeding bound at a concrete input, and the update
bound in a concrete environment. -/
theorem state_range_invariant_witness :
    ValidRand (fun _ => 1 / 2)
    ∧ getRandomTextureData 1 1 (fun _ => 1 / 2) 0 0 < 1
    ∧ updateCell vnEnv (fun _ _ => 0) 0 0 < 2 := by
  have hr : ValidRand (fun _ => (1 : ℚ) / 2) := by
    intro i
    constructor <;> norm_num
  refine ⟨hr, ?_, ?_⟩
  · exact state_range_invariant.1 1 1 (fun _ => 1 / 2) hr (by norm_num) 0 0
  · refine state_range_invariant.2 vnEnv (fun _ _ => 0) 2 ?_ (by intro x y; norm_num) 0 0
    intro idx
    have h0 : vnEnv.rules.getD idx 0 = 0 := getD_replicate_zero MAX_N_RULES idx
    omega

/-- C1: When the computed rule-table length exceeds `MAX_N_RULES`,
`updateUniforms` signals the user-visible error (`showError` fires) and
leaves the stored rule table unchanged: the overflowing
`rules.set(newRules, 0)` throws a RangeError before writing anything, so
the simulation keeps running on the last valid table (the render loop is
scheduled independently of the key handler in which the exception
propagates, so the process does not terminate). -/
theorem ruleTable_overflow_recoverable (R nStates : ℕ) (ci : ℚ) (ws : List ℚ)
    (r : ℕ → ℚ) (shuffle : List ℕ → List ℕ) (oldRules : List ℕ)
    (hsh : IsShuffle shuffle)
    (hover : nRulesOf R nStates ws > (MAX_N_RULES : ℤ))
    (hlen : oldRules.length = MAX_N_RULES) :
    (updateUniforms R nStates ci ws r shuffle oldRules).errorShown = true
    ∧ (updateUniforms R nStates ci ws r shuffle oldRules).rules = oldRules := by
  have hlen2 : (shuffle (newRulesList (nRulesOf R nStates ws).toNat nStates ci r)).length
      = (nRulesOf R nStates ws).toNat := by
    rw [(hsh _).length_eq, newRulesList, List.length_map, List.length_range]
  have hset : typedArraySet oldRules
      (shuffle (newRulesList (nRulesOf R nStates ws).toNat nStates ci r)) 0
      = Except.error () := by
    unfold typedArraySet
    rw [if_neg]
    rw [hlen2, hlen]
    omega
  simp only [updateUniforms, hset]
  exact ⟨decide_eq_true hover, trivial⟩

/-- C1 witness: with weights [0, 100], range 2 and 2 states, the computed
rule-table length is 2401 > 793 = MAX_N_RULES; the error is flagged and
the stored table is unchanged. -/
theorem ruleTable_overflow_recoverable_witness :
    nRulesOf 2 2 [0, 100] > (MAX_N_RULES : ℤ)
    ∧ (updateUniforms 2 2 0 [0, 100] (fun _ => 0) id
        (List.replicate MAX_N_RULES 0)).errorShown = true
    ∧ (updateUniforms 2 2 0 [0, 100] (fun _ => 0) id
        (List.replicate MAX_N_RULES 0)).rules = List.replicate MAX_N_RULES 0 := by
  have hover : nRulesOf 2 2 [0, 100] > (MAX_N_RULES : ℤ) := by
    norm_num [nRulesOf, minNeighborWeightOf, maxNeighborWeightOf, minWeightFold,
      maxWeightFold, nNeighborsOf, MAX_N_RULES, MAX_WEIGHT, MAX_NEIGHBOR_RANGE,
      min_def, max_def]
  have h := ruleTable_overflow_recoverable 2 2 0 [0, 100] (fun _ => 0) id
    (List.replicate MAX_N_RULES 0) (fun l => List.Perm.refl l) hover
    (List.length_replicate _ _)
  exact ⟨hover, h.1, h.2⟩

/-- C7 counterexample: while Paused, a tick whose resize poll detects a
changed display size reallocates both grid buffers with fresh random
contents, so the buffer contents are not bit-identical across paused
ticks as the claim states: here cell (0, 0) of texture 0 changes from 0
to 7. -/
theorem paused_tick_can_change_buffers :
    pausedState.isPaused = true
    ∧ (tick cfg0 resizeInput pausedState).1.tex0 0 0 = 7
    ∧ pausedState.tex0 0 0 = 0
    ∧ (tick cfg0 resizeInput pausedState).1.tex0 0 0 ≠ pausedState.tex0 0 0 := by
  have h1 : (tick cfg0 resizeInput pausedState).1.tex0 0 0 = 7 := by
    have hcond : ¬(resizeInput.displayW = pausedState.canvasW
        ∧ resizeInput.displayH = pausedState.canvasH) := by
      intro h
      have := h.1
      simp [resizeInput, pausedState] at this
    have hres : resizeStep cfg0.nStates resizeInput pausedState
        = { pausedState with
            canvasW := resizeInput.displayW
            canvasH := resizeInput.displayH
            tex0 := getRandomTextureData resizeInput.displayW cfg0.nStates resizeInput.rA
            tex1 := getRandomTextureData resizeInput.displayW cfg0.nStates resizeInput.rB } := by
      unfold resizeStep
      rw [if_neg hcond]
    have hpause : (resizeStep cfg0.nStates resizeInput pausedState).isPaused = true := by
      rw [hres]
      rfl
    show (if (resizeStep cfg0.nStates resizeInput pausedState).isPaused
        then resizeStep cfg0.nStates resizeInput pausedState
        else updatePhase cfg0 (resizeStep cfg0.nStates resizeInput pausedState)).tex0 0 0 = 7
    rw [if_pos hpause, hres]
    show getRandomTextureData resizeInput.displayW cfg0.nStates resizeInput.rA 0 0 = 7
    unfold getRandomTextureData resizeInput cfg0
    norm_num
    decide
  refine ⟨rfl, h1, rfl, ?_⟩
  rw [h1]
  intro h
  exact absurd h.symm (by norm_num [pausedState])

/-- C7 amended: once Paused, and as long as the resize poll sees an
unchanged display size, any number of subsequent ticks leaves the render
state (both textures, the ping-pong index, the canvas size) bit-identical;
each such tick skips the whole update phase but still runs the display
stage and still polls for resize. -/
theorem paused_steady_ticks_preserve_buffers (cfg : SimConfig) (inps : List TickInput)
    (s : RenderState) (hp : s.isPaused = true)
    (hsize : ∀ inp ∈ inps, inp.displayW = s.canvasW ∧ inp.displayH = s.canvasH) :
    iterTicks cfg inps s = s
    ∧ (∀ inp ∈ inps, (tick cfg inp s).1 = s ∧ (tick cfg inp s).2 = displayPhase cfg s) := by
  have hone : ∀ inp, inp.displayW = s.canvasW → inp.displayH = s.canvasH →
      tick cfg inp s = (s, displayPhase cfg s) := by
    intro inp hw hh
    have hres : resizeStep cfg.nStates inp s = s := by
      unfold resizeStep
      rw [if_pos ⟨hw, hh⟩]
    unfold tick
    rw [hres]
    simp [hp]
  constructor
  · induction inps with
    | nil => rfl
    | cons a t ih =>
      have ha := hsize a (List.mem_cons_self a t)
      have hstep : (tick cfg a s).1 = s := by
        rw [hone a ha.1 ha.2]
      show iterTicks cfg t ((tick cfg a s).1) = s
      rw [hstep]
      exact ih (fun inp h => hsize inp (List.mem_cons_of_mem a h))
  · intro inp hmem
    have h := hsize inp hmem
    rw [hone inp h.1 h.2]
    exact ⟨rfl, rfl⟩

/-- C7 amended witness: two steady paused ticks leave the state of
`pausedState` unchanged. -/
theorem paused_steady_ticks_preserve_buffers_witness :
    pausedState.isPaused = true
    ∧ iterTicks cfg0 [steadyInput, steadyInput] pausedState = pausedState := by
  refine ⟨rfl, ?_⟩
  refine (paused_steady_ticks_preserve_buffers cfg0 [steadyInput, steadyInput]
    pausedState rfl ?_).1
  intro inp h
  rcases List.mem_cons.mp h with rfl | h2
  · exact ⟨rfl, rfl⟩
  · rcases List.mem_cons.mp h2 with rfl | h3
    · exact ⟨rfl, rfl⟩
    · cases h3

lemma newRulesList_getD (len nStates : ℕ) (ci : ℚ) (r : ℕ → ℚ) (i : ℕ) (hi : i < len) :
    (newRulesList len nStates ci r).getD i 0 = genRule nStates ci r i := by
  rw [newRulesList]
  exact getD_range_map _ len i hi

lemma newRulesList_mem_le (len nStates : ℕ) (ci : ℚ) (r : ℕ → ℚ) (hr : ValidRand r)
    (x : ℕ) (hx : x ∈ newRulesList len nStates ci r) : x ≤ nStates := by
  obtain ⟨i, _, rfl⟩ := List.mem_map.mp hx
  exact genRule_le nStates ci r hr i

lemma updateUniforms_rules_getD (R nStates : ℕ) (ci : ℚ) (ws : List ℚ) (r : ℕ → ℚ)
    (shuffle : List ℕ → List ℕ) (oldRules : List ℕ)
    (hsh : IsShuffle shuffle)
    (hlen : oldRules.length = MAX_N_RULES)
    (hcap : nRulesOf R nStates ws ≤ (MAX_N_RULES : ℤ))
    (i : ℕ) (hi : i < (nRulesOf R nStates ws).toNat) :
    (updateUniforms R nStates ci ws r shuffle oldRules).rules.getD i 0
      = (shuffle (newRulesList (nRulesOf R nStates ws).toNat nStates ci r)).getD i 0 % 256 := by
  have hshlen : (shuffle (newRulesList (nRulesOf R nStates ws).toNat nStates ci r)).length
      = (nRulesOf R nStates ws).toNat := by
    rw [(hsh _).length_eq, newRulesList, List.length_map, List.length_range]
  have hok : typedArraySet oldRules
      (shuffle (newRulesList (nRulesOf R nStates ws).toNat nStates ci r)) 0
      = Except.ok ((List.range oldRules.length).map (fun t =>
          if 0 ≤ t ∧ t < 0 + (shuffle
              (newRulesList (nRulesOf R nStates ws).toNat nStates ci r)).length
          then (shuffle (newRulesList (nRulesOf R nStates ws).toNat nStates ci r)).getD
              (t - 0) 0 % 256
          else oldRules.getD t 0)) := by
    unfold typedArraySet
    rw [if_pos]
    rw [hshlen, hlen]
    omega
  simp only [updateUniforms, hok]
  rw [hlen]
  have hi793 : i < MAX_N_RULES := by omega
  rw [getD_range_map _ MAX_N_RULES i hi793]
  have hcond : 0 ≤ i ∧ i < 0 + (shuffle
      (newRulesList (nRulesOf R nStates ws).toNat nStates ci r)).length := by
    refine ⟨Nat.zero_le i, ?_⟩
    rw [hshlen]
    omega
  rw [if_pos hcond, Nat.sub_zero]

/-- The spec-modelled maximally-spread sequence stays inside the interval
it is scaled into. -/
lemma furthestSubsequentDistance_mem (lo hi : ℚ) (h : lo ≤ hi) (n : ℕ) :
    lo ≤ furthestSubsequentDistance lo hi n ∧ furthestSubsequentDistance lo hi n ≤ hi := by
  match n with
  | 0 => exact ⟨le_refl lo, h⟩
  | 1 => exact ⟨h, le_refl hi⟩
  | n + 2 =>
    unfold furthestSubsequentDistance
    set k := Nat.log 2 (n + 1) with hk
    set j := n + 1 - 2 ^ k with hj
    set num : ℕ := 2 * (2 ^ k - 1 - j) + 1 with hnum
    have hnumle : num ≤ 2 ^ (k + 1) := by
      have hp : 1 ≤ 2 ^ k := Nat.one_le_two_pow
      have : 2 ^ (k + 1) = 2 * 2 ^ k := by ring
      omega
    have hfrac0 : (0 : ℚ) ≤ ((num : ℕ) : ℚ) / ((2 ^ (k + 1) : ℕ) : ℚ) := by
      apply div_nonneg <;> positivity
    have hfrac1 : ((num : ℕ) : ℚ) / ((2 ^ (k + 1) : ℕ) : ℚ) ≤ 1 := by
      rw [div_le_one (by positivity)]
      exact_mod_cast hnumle
    constructor
    · have : (0 : ℚ) ≤ (hi - lo) * (((num : ℕ) : ℚ) / ((2 ^ (k + 1) : ℕ) : ℚ)) := by
        apply mul_nonneg (by linarith) hfrac0
      linarith
    · have : (hi - lo) * (((num : ℕ) : ℚ) / ((2 ^ (k + 1) : ℕ) : ℚ)) ≤ (hi - lo) * 1 := by
        apply mul_le_mul_of_nonneg_left hfrac1 (by linarith)
      linarith

/-- C8: For every state index and each of the four weight-distribution
strategies (alternating, maximally-spread, tiled ramp, uniform random),
the generated weight value lies in [0, MAX_WEIGHT]. -/
theorem weights_lie_in_range (k i : ℕ) (r : ℕ → ℚ) (hr : ValidRand r) :
    0 ≤ updateWeights k r i ∧ updateWeights k r i ≤ MAX_WEIGHT := by
  have hM : (0 : ℚ) ≤ MAX_WEIGHT := by norm_num [MAX_WEIGHT]
  unfold updateWeights
  have h4 : k % 4 = 0 ∨ k % 4 = 1 ∨ k % 4 = 2 ∨ k % 4 = 3 := by omega
  rcases h4 with h | h | h | h <;> rw [h]
  · have h2 : i % 2 = 0 ∨ i % 2 = 1 := by omega
    rcases h2 with h2 | h2 <;> rw [h2] <;> constructor <;> norm_num [MAX_WEIGHT]
  · exact furthestSubsequentDistance_mem 0 MAX_WEIGHT hM i
  · have h5 : rampPattern.length = 5 := by norm_num [rampPattern]
    rw [h5]
    have h5c : i % 5 = 0 ∨ i % 5 = 1 ∨ i % 5 = 2 ∨ i % 5 = 3 ∨ i % 5 = 4 := by omega
    rcases h5c with h5c | h5c | h5c | h5c | h5c <;> rw [h5c] <;>
      constructor <;> norm_num [rampPattern, MAX_WEIGHT]
  · have h1 := (hr i).1
    have h2 := (hr i).2
    constructor
    · exact mul_nonneg h1 hM
    · calc r i * MAX_WEIGHT ≤ 1 * MAX_WEIGHT :=
          mul_le_mul_of_nonneg_right (le_of_lt h2) hM
        _ = MAX_WEIGHT := one_mul _

/-- C8 witness: the random strategy at a concrete draw stays in range. -/
theorem weights_lie_in_range_witness :
    ValidRand (fun _ => 1 / 3)
    ∧ 0 ≤ updateWeights 3 (fun _ => 1 / 3) 0
    ∧ updateWeights 3 (fun _ => 1 / 3) 0 ≤ MAX_WEIGHT := by
  have hr : ValidRand (fun _ => (1 : ℚ) / 3) := by
    intro i
    constructor <;> norm_num
  have h := weights_lie_in_range 3 0 (fun _ => 1 / 3) hr
  exact ⟨hr, h.1, h.2⟩

/-- C4: For any configuration within capacity, the freshly generated rule
table is defined at every index of [0, length): indices `i < nStates` with
`cellInertia < 1` are the identity anchors `i + 1`; every other entry is 0
when the first draw is below `cellInertia` and otherwise
`floor(draw * (nStates + 1))`; the stored sequence is the shuffle (a
permutation) of that list, and every stored entry lies in
{0} union {1..nStates}. -/
theorem ruleTable_entries_defined (R nStates : ℕ) (ci : ℚ) (ws : List ℚ) (r : ℕ → ℚ)
    (shuffle : List ℕ → List ℕ) (oldRules : List ℕ)
    (hr : ValidRand r) (hsh : IsShuffle shuffle)
    (hlen : oldRules.length = MAX_N_RULES)
    (hcap : nRulesOf R nStates ws ≤ (MAX_N_RULES : ℤ)) :
    (∀ i, i < (nRulesOf R nStates ws).toNat → i < nStates → ci < 1 →
        (newRulesList (nRulesOf R nStates ws).toNat nStates ci r).getD i 0 = i + 1)
    ∧ (∀ i, i < (nRulesOf R nStates ws).toNat → ¬(i < nStates ∧ ci < 1) →
        ((r (2 * i) < ci
            ∧ (newRulesList (nRulesOf R nStates ws).toNat nStates ci r).getD i 0 = 0)
          ∨ (¬(r (2 * i) < ci)
            ∧ (newRulesList (nRulesOf R nStates ws).toNat nStates ci r).getD i 0
                = (⌊r (2 * i + 1) * ((nStates : ℚ) + 1)⌋).toNat)))
    ∧ (shuffle (newRulesList (nRulesOf R nStates ws).toNat nStates ci r)).Perm
        (newRulesList (nRulesOf R nStates ws).toNat nStates ci r)
    ∧ (∀ i, i < (nRulesOf R nStates ws).toNat →
        (updateUniforms R nStates ci ws r shuffle oldRules).rules.getD i 0 ≤ nStates) := by
  refine ⟨?_, ?_, hsh _, ?_⟩
  · intro i hi hins hci
    rw [newRulesList_getD _ _ _ _ i hi]
    unfold genRule
    rw [if_pos ⟨hins, hci⟩]
  · intro i hi hna
    rw [newRulesList_getD _ _ _ _ i hi]
    unfold genRule
    rw [if_neg hna]
    by_cases hb : r (2 * i) < ci
    · left
      exact ⟨hb, by rw [if_pos hb]⟩
    · right
      exact ⟨hb, by rw [if_neg hb]⟩
  · intro i hi
    rw [updateUniforms_rules_getD R nStates ci ws r shuffle oldRules hsh hlen hcap i hi]
    have hshlen : (shuffle (newRulesList (nRulesOf R nStates ws).toNat nStates ci r)).length
        = (nRulesOf R nStates ws).toNat := by
      rw [(hsh _).length_eq, newRulesList, List.length_map, List.length_range]
    have hmem : (shuffle (newRulesList (nRulesOf R nStates ws).toNat nStates ci r)).getD i 0
        ∈ shuffle (newRulesList (nRulesOf R nStates ws).toNat nStates ci r) := by
      apply getD_mem_of_lt
      rw [hshlen]
      exact hi
    have hmem2 := (hsh (newRulesList (nRulesOf R nStates ws).toNat nStates ci r)).mem_iff.mp hmem
    have hle := newRulesList_mem_le _ nStates ci r hr _ hmem2
    exact le_trans (Nat.mod_le _ _) hle

/-- C4 witness: with one state of weight 1, range 1, inertia 1/2, the
single-entry table holds the identity anchor 1. -/
theorem ruleTable_entries_defined_witness :
    ValidRand (fun _ => 0)
    ∧ nRulesOf 1 1 [1] ≤ (MAX_N_RULES : ℤ)
    ∧ (0 : ℕ) < (nRulesOf 1 1 [1]).toNat
    ∧ (newRulesList (nRulesOf 1 1 [1]).toNat 1 (1 / 2) (fun _ => 0)).getD 0 0 = 0 + 1 := by
  have hr : ValidRand (fun _ => (0 : ℚ)) := by
    intro i
    constructor <;> norm_num
  have hnr : nRulesOf 1 1 [1] = 1 := by
    norm_num [nRulesOf, minNeighborWeightOf, maxNeighborWeightOf, minWeightFold,
      maxWeightFold, nNeighborsOf]
  have hcap : nRulesOf 1 1 [1] ≤ (MAX_N_RULES : ℤ) := by
    rw [hnr]
    norm_num [MAX_N_RULES, MAX_WEIGHT, MAX_NEIGHBOR_RANGE]
  have hpos : (0 : ℕ) < (nRulesOf 1 1 [1]).toNat := by
    rw [hnr]
    norm_num
  refine ⟨hr, hcap, hpos, ?_⟩
  exact (ruleTable_entries_defined 1 1 (1 / 2) [1] (fun _ => 0) id
    (List.replicate MAX_N_RULES 0) hr (fun l => List.Perm.refl l)
    (List.length_replicate _ _) hcap).1 0 hpos (by norm_num) (by norm_num)

/-! ### Helper lemmas for the rule-index arithmetic and neighbor-sum bounds -/

lemma ruleIndexAt_of_floor_bounds (e : ShaderEnv) (g : ℕ → ℕ → ℕ) (i j : ℕ) (maxNW : ℤ)
    (h0 : 0 ≤ e.minNW) (h1 : e.minNW ≤ ⌊neighborSum e g i j⌋)
    (h2 : ⌊neighborSum e g i j⌋ ≤ maxNW) (h3 : maxNW < (two32 : ℤ)) :
    ruleIndexAt e g i j = (⌊neighborSum e g i j⌋ - e.minNW).toNat
    ∧ (ruleIndexAt e g i j : ℤ) ≤ maxNW - e.minNW := by
  unfold ruleIndexAt toUint32 intToUint32 uintSub two32
  unfold two32 at h3
  omega

lemma updateUniforms_minNW (R nStates : ℕ) (ci : ℚ) (ws : List ℚ) (r : ℕ → ℚ)
    (shuffle : List ℕ → List ℕ) (oldRules : List ℕ) :
    (updateUniforms R nStates ci ws r shuffle oldRules).minNW
      = minNeighborWeightOf R nStates ws := by
  cases htas : typedArraySet oldRules
      (shuffle (newRulesList (nRulesOf R nStates ws).toNat nStates ci r)) 0 with
  | ok v => simp [updateUniforms, htas]
  | error e2 => simp [updateUniforms, htas]

lemma genRule_inertia_one (nStates : ℕ) (r : ℕ → ℚ) (hr : ValidRand r) (i : ℕ) :
    genRule nStates 1 r i = 0 := by
  unfold genRule
  rw [if_neg, if_pos (hr (2 * i)).2]
  rintro ⟨_, hlt⟩
  exact absurd hlt (lt_irrefl 1)

lemma neighborSum_bounds (e : ShaderEnv) (g : ℕ → ℕ → ℕ) (nStates : ℕ) (i j : ℕ)
    (hvn : e.vonNeumann = false)
    (h0 : 0 < nStates) (hlen : nStates ≤ e.weights.length)
    (hg : ∀ x y, g x y < nStates) :
    ((minWeightFold (e.weights.take nStates)).getD 0) * (nNeighborsOf e.neighborRange : ℚ)
        ≤ neighborSum e g i j
    ∧ neighborSum e g i j
        ≤ ((maxWeightFold (e.weights.take nStates)).getD 0)
            * (nNeighborsOf e.neighborRange : ℚ) := by
  have htkne : e.weights.take nStates ≠ [] := by
    have hl : (e.weights.take nStates).length = min nStates e.weights.length :=
      List.length_take nStates e.weights
    intro hnil
    rw [hnil] at hl
    simp at hl
    omega
  have hbound : ∀ x ∈ ((includedOffsets e.vonNeumann e.neighborRange).map (fun p =>
      weightAt e.weights (getState g e.W e.H
        (texCenter e.W i + (e.W : ℚ) * e.canvasOffset
          + (p.1 : ℚ) * (e.gridSize / (e.W : ℚ)))
        (texCenter e.H j + (e.H : ℚ) * e.canvasOffset
          + (p.2 : ℚ) * (e.gridSize / (e.H : ℚ)))))),
      (minWeightFold (e.weights.take nStates)).getD 0 ≤ x
        ∧ x ≤ (maxWeightFold (e.weights.take nStates)).getD 0 := by
    intro x hx
    obtain ⟨p, _, rfl⟩ := List.mem_map.mp hx
    have hs : getState g e.W e.H
        (texCenter e.W i + (e.W : ℚ) * e.canvasOffset
          + (p.1 : ℚ) * (e.gridSize / (e.W : ℚ)))
        (texCenter e.H j + (e.H : ℚ) * e.canvasOffset
          + (p.2 : ℚ) * (e.gridSize / (e.H : ℚ))) < nStates := hg _ _
    have hsl : getState g e.W e.H
        (texCenter e.W i + (e.W : ℚ) * e.canvasOffset
          + (p.1 : ℚ) * (e.gridSize / (e.W : ℚ)))
        (texCenter e.H j + (e.H : ℚ) * e.canvasOffset
          + (p.2 : ℚ) * (e.gridSize / (e.H : ℚ))) < e.weights.length :=
      lt_of_lt_of_le hs hlen
    have htake : e.weights.getD (getState g e.W e.H
        (texCenter e.W i + (e.W : ℚ) * e.canvasOffset
          + (p.1 : ℚ) * (e.gridSize / (e.W : ℚ)))
        (texCenter e.H j + (e.H : ℚ) * e.canvasOffset
          + (p.2 : ℚ) * (e.gridSize / (e.H : ℚ)))) 0
        = (e.weights.take nStates).getD (getState g e.W e.H
            (texCenter e.W i + (e.W : ℚ) * e.canvasOffset
              + (p.1 : ℚ) * (e.gridSize / (e.W : ℚ)))
            (texCenter e.H j + (e.H : ℚ) * e.canvasOffset
              + (p.2 : ℚ) * (e.gridSize / (e.H : ℚ)))) 0 := by
      rw [List.getD_eq_getElem?_getD, List.getD_eq_getElem?_getD, List.getElem?_take,
        if_pos hs]
    have hmem : (e.weights.take nStates).getD (getState g e.W e.H
        (texCenter e.W i + (e.W : ℚ) * e.canvasOffset
          + (p.1 : ℚ) * (e.gridSize / (e.W : ℚ)))
        (texCenter e.H j + (e.H : ℚ) * e.canvasOffset
          + (p.2 : ℚ) * (e.gridSize / (e.H : ℚ)))) 0 ∈ e.weights.take nStates := by
      apply getD_mem_of_lt
      rw [List.length_take nStates e.weights]
      omega
    unfold weightAt
    rw [htake]
    exact ⟨minWeightFold_le _ htkne _ hmem, le_maxWeightFold _ htkne _ hmem⟩
  have hlenmap : ((includedOffsets e.vonNeumann e.neighborRange).map (fun p =>
      weightAt e.weights (getState g e.W e.H
        (texCenter e.W i + (e.W : ℚ) * e.canvasOffset
          + (p.1 : ℚ) * (e.gridSize / (e.W : ℚ)))
        (texCenter e.H j + (e.H : ℚ) * e.canvasOffset
          + (p.2 : ℚ) * (e.gridSize / (e.H : ℚ)))))).length
      = nNeighborsOf e.neighborRange := by
    rw [List.length_map, hvn, length_includedOffsets_false]
  have hup := List.sum_le_card_nsmul _ _ (fun x hx => (hbound x hx).2)
  have hlow := List.card_nsmul_le_sum _ _ (fun x hx => (hbound x hx).1)
  rw [hlenmap, nsmul_eq_mul] at hup hlow
  unfold neighborSum
  exact ⟨le_trans (le_of_eq (mul_comm _ _)) hlow, le_trans hup (le_of_eq (mul_comm _ _))⟩

/-- C2 counterexample: the update shader computes
`ruleIndex = uint(sum) - u_minNeighborWeight` with no clamping.  In von
Neumann mode with neighbor range 2 and both weights 1, every neighbor sum
is 12 while `minNeighborWeight` is 24 (Moore formula), so the unsigned
subtraction wraps to 4294967284, far outside the 1-entry rule table: the
index is not clamped into [0, ruleTableLength) before the lookup. -/
theorem rule_index_escapes_table :
    nRulesOf 2 2 [1, 1] = 1
    ∧ ruleIndexAt vnEnv (fun _ _ => 0) 0 0 = 4294967284
    ∧ ¬(ruleIndexAt vnEnv (fun _ _ => 0) 0 0 < (nRulesOf 2 2 [1, 1]).toNat) := by
  have hnr : nRulesOf 2 2 [1, 1] = 1 := by
    norm_num [nRulesOf, minNeighborWeightOf, maxNeighborWeightOf, minWeightFold,
      maxWeightFold, nNeighborsOf, min_def, max_def]
  have hoffT : includedOffsets true 2 =
      [(-2, 0), (-1, -1), (-1, 0), (-1, 1), (0, -2), (0, -1), (0, 1), (0, 2),
        (1, -1), (1, 0), (1, 1), (2, 0)] := by decide
  have hsum : neighborSum vnEnv (fun _ _ => 0) 0 0 = 12 := by
    simp only [neighborSum, vnEnv]
    rw [hoffT]
    simp [getState, weightAt]
    norm_num
  have hmin : vnEnv.minNW = 24 := by
    show minNeighborWeightOf 2 2 [1, 1] = 24
    norm_num [minNeighborWeightOf, minWeightFold, nNeighborsOf, min_def]
  have hidx : ruleIndexAt vnEnv (fun _ _ => 0) 0 0 = 4294967284 := by
    unfold ruleIndexAt
    rw [hsum, hmin]
    norm_num [toUint32, intToUint32, uintSub, two32]
    omega
  refine ⟨hnr, hidx, ?_⟩
  rw [hidx, hnr]
  norm_num

/-- C2 amended: the computed rule index is `floor(sum) - minNeighborWeight`
in 32-bit unsigned arithmetic with no clamping; whenever the floored
neighbor sum lies between `minNeighborWeight` and a bound `maxNW` below
2^32 (as every Moore-mode sum does), the index equals the plain difference
and lands inside [0, maxNW - minNeighborWeight + 1), so the lookup stays
in bounds; sums below `minNeighborWeight` (possible in von Neumann mode)
instead wrap around, out of range. -/
theorem rule_index_in_range_when_sum_in_range (e : ShaderEnv) (g : ℕ → ℕ → ℕ)
    (i j : ℕ) (maxNW : ℤ)
    (h0 : 0 ≤ e.minNW) (h1 : e.minNW ≤ ⌊neighborSum e g i j⌋)
    (h2 : ⌊neighborSum e g i j⌋ ≤ maxNW) (h3 : maxNW < (two32 : ℤ)) :
    ruleIndexAt e g i j = (⌊neighborSum e g i j⌋ - e.minNW).toNat
    ∧ (ruleIndexAt e g i j : ℤ) < maxNW - e.minNW + 1 := by
  have h := ruleIndexAt_of_floor_bounds e g i j maxNW h0 h1 h2 h3
  exact ⟨h.1, by omega⟩

/-- C2 amended witness: in a Moore environment with one weight-1 state and
range 1, the sum is 8, `minNeighborWeight` is 8, and the rule index is 0,
inside the 1-entry table. -/
theorem rule_index_in_range_when_sum_in_range_witness :
    (0 : ℤ) ≤ mooreEnv.minNW
    ∧ mooreEnv.minNW ≤ ⌊neighborSum mooreEnv (fun _ _ => 0) 0 0⌋
    ∧ ⌊neighborSum mooreEnv (fun _ _ => 0) 0 0⌋ ≤ 8
    ∧ (8 : ℤ) < (two32 : ℤ)
    ∧ ruleIndexAt mooreEnv (fun _ _ => 0) 0 0 = 0
    ∧ (ruleIndexAt mooreEnv (fun _ _ => 0) 0 0 : ℤ) < 8 - mooreEnv.minNW + 1 := by
  have hoff : includedOffsets false 1 =
      [(-1, -1), (-1, 0), (-1, 1), (0, -1), (0, 1), (1, -1), (1, 0), (1, 1)] := by decide
  have hsum : neighborSum mooreEnv (fun _ _ => 0) 0 0 = 8 := by
    simp only [neighborSum, mooreEnv]
    rw [hoff]
    simp [getState, weightAt]
    norm_num
  have hmin : mooreEnv.minNW = 8 := by
    show minNeighborWeightOf 1 1 [1] = 8
    norm_num [minNeighborWeightOf, minWeightFold, nNeighborsOf]
  have h0 : (0 : ℤ) ≤ mooreEnv.minNW := by rw [hmin]; norm_num
  have hfl : ⌊neighborSum mooreEnv (fun _ _ => 0) 0 0⌋ = 8 := by
    rw [hsum]
    norm_num
  have h1 : mooreEnv.minNW ≤ ⌊neighborSum mooreEnv (fun _ _ => 0) 0 0⌋ := by
    rw [hmin, hfl]
  have h2 : ⌊neighborSum mooreEnv (fun _ _ => 0) 0 0⌋ ≤ 8 := by rw [hfl]
  have h3 : (8 : ℤ) < (two32 : ℤ) := by norm_num [two32]
  have h := rule_index_in_range_when_sum_in_range mooreEnv (fun _ _ => 0) 0 0 8 h0 h1 h2 h3
  refine ⟨h0, h1, h2, h3, ?_, h.2⟩
  rw [h.1, hfl, hmin]
  norm_num

/-- C10: When `cellInertia` is 1 the anchor branch is skipped and every
random draw falls below 1, so every entry of the freshly generated rule
table is 0; consequently (in Moore mode, with in-range states and
nonnegative weights) every rule lookup lands inside the fresh table, finds
0, and every cell keeps its current state: the simulation freezes while
the render loop keeps running. -/
theorem inertia_one_freezes_simulation (R nStates : ℕ) (ws : List ℚ) (r : ℕ → ℚ)
    (shuffle : List ℕ → List ℕ) (oldRules : List ℕ)
    (g : ℕ → ℕ → ℕ) (W H : ℕ) (gridSize cOff : ℚ) (i j : ℕ)
    (hr : ValidRand r) (hsh : IsShuffle shuffle)
    (hlen : oldRules.length = MAX_N_RULES)
    (hcap : nRulesOf R nStates ws ≤ (MAX_N_RULES : ℤ))
    (h0 : 0 < nStates) (hws : nStates ≤ ws.length)
    (hwnn : ∀ w ∈ ws, 0 ≤ w)
    (hg : ∀ x y, g x y < nStates)
    (hmax32 : maxNeighborWeightOf R nStates ws < (two32 : ℤ))
    (hW : 0 < W) (hH : 0 < H) (hi : i < W) (hj : j < H) :
    (∀ idx, idx < (nRulesOf R nStates ws).toNat →
        (newRulesList (nRulesOf R nStates ws).toNat nStates 1 r).getD idx 0 = 0)
    ∧ updateCell
        ⟨W, H, ws, (updateUniforms R nStates 1 ws r shuffle oldRules).rules,
          (updateUniforms R nStates 1 ws r shuffle oldRules).minNW,
          false, R, gridSize, cOff⟩ g i j = g i j := by
  constructor
  · intro idx hidx
    rw [newRulesList_getD _ _ _ _ idx hidx]
    exact genRule_inertia_one nStates r hr idx
  · set e : ShaderEnv := ⟨W, H, ws,
      (updateUniforms R nStates 1 ws r shuffle oldRules).rules,
      (updateUniforms R nStates 1 ws r shuffle oldRules).minNW,
      false, R, gridSize, cOff⟩ with he
    have hminNW : e.minNW = minNeighborWeightOf R nStates ws :=
      updateUniforms_minNW R nStates 1 ws r shuffle oldRules
    have hbounds := neighborSum_bounds e g nStates i j rfl h0 hws hg
    have htkne : ws.take nStates ≠ [] := by
      have hl := List.length_take nStates ws
      intro hnil
      rw [hnil] at hl
      simp at hl
      omega
    have hminQ0 : 0 ≤ (minWeightFold (ws.take nStates)).getD 0 := by
      apply le_minWeightFold _ htkne
      intro x hx
      exact hwnn x (List.mem_of_mem_take hx)
    have hfl1 : minNeighborWeightOf R nStates ws ≤ ⌊neighborSum e g i j⌋ := by
      unfold minNeighborWeightOf
      exact Int.floor_le_floor hbounds.1
    have hfl2 : ⌊neighborSum e g i j⌋ ≤ maxNeighborWeightOf R nStates ws := by
      unfold maxNeighborWeightOf
      exact Int.floor_le_floor hbounds.2
    have hmin0 : 0 ≤ minNeighborWeightOf R nStates ws := by
      unfold minNeighborWeightOf
      apply Int.le_floor.mpr
      push_cast
      exact mul_nonneg hminQ0 (by positivity)
    have hidx := ruleIndexAt_of_floor_bounds e g i j (maxNeighborWeightOf R nStates ws)
      (by rw [hminNW]; exact hmin0) (by rw [hminNW]; exact hfl1) hfl2 hmax32
    have hltlen : ruleIndexAt e g i j < (nRulesOf R nStates ws).toNat := by
      have h1 := hidx.2
      rw [hminNW] at h1
      unfold nRulesOf
      omega
    have hgetD := updateUniforms_rules_getD R nStates 1 ws r shuffle oldRules
      hsh hlen hcap _ hltlen
    have hshlen : (shuffle (newRulesList (nRulesOf R nStates ws).toNat nStates 1 r)).length
        = (nRulesOf R nStates ws).toNat := by
      rw [(hsh _).length_eq, newRulesList, List.length_map, List.length_range]
    have hmem : (shuffle (newRulesList (nRulesOf R nStates ws).toNat nStates 1 r)).getD
        (ruleIndexAt e g i j) 0
        ∈ shuffle (newRulesList (nRulesOf R nStates ws).toNat nStates 1 r) := by
      apply getD_mem_of_lt
      rw [hshlen]
      exact hltlen
    have hmem2 := (hsh (newRulesList (nRulesOf R nStates ws).toNat nStates 1 r)).mem_iff.mp hmem
    have hzero : (shuffle (newRulesList (nRulesOf R nStates ws).toNat nStates 1 r)).getD
        (ruleIndexAt e g i j) 0 = 0 := by
      obtain ⟨i0, _, heq⟩ := List.mem_map.mp hmem2
      rw [← heq, genRule_inertia_one nStates r hr i0]
    have hentry : e.rules.getD (ruleIndexAt e g i j) 0 = 0 := by
      show (updateUniforms R nStates 1 ws r shuffle oldRules).rules.getD
        (ruleIndexAt e g i j) 0 = 0
      rw [hgetD, hzero]
    rw [updateCell_eq, if_pos hentry]
    exact getState_self g W H hW hH i j hi hj

/-- C10 witness: a concrete one-state configuration with inertia 1: the
update leaves the (all-zero) grid cell unchanged. -/
theorem inertia_one_freezes_simulation_witness :
    ValidRand (fun _ => 0)
    ∧ nRulesOf 1 1 [1] ≤ (MAX_N_RULES : ℤ)
    ∧ maxNeighborWeightOf 1 1 [1] < (two32 : ℤ)
    ∧ updateCell
        ⟨1, 1, [1],
          (updateUniforms 1 1 1 [1] (fun _ => 0) id (List.replicate MAX_N_RULES 0)).rules,
          (updateUniforms 1 1 1 [1] (fun _ => 0) id (List.replicate MAX_N_RULES 0)).minNW,
          false, 1, 1, 0⟩ (fun _ _ => 0) 0 0 = 0 := by
  have hr : ValidRand (fun _ => (0 : ℚ)) := by
    intro i
    constructor <;> norm_num
  have hcap : nRulesOf 1 1 [1] ≤ (MAX_N_RULES : ℤ) := by
    norm_num [nRulesOf, minNeighborWeightOf, maxNeighborWeightOf, minWeightFold,
      maxWeightFold, nNeighborsOf, MAX_N_RULES, MAX_WEIGHT, MAX_NEIGHBOR_RANGE]
  have hmax32 : maxNeighborWeightOf 1 1 [1] < (two32 : ℤ) := by
    norm_num [maxNeighborWeightOf, maxWeightFold, nNeighborsOf, two32]
  have h := inertia_one_freezes_simulation 1 1 [1] (fun _ => 0) id
    (List.replicate MAX_N_RULES 0) (fun _ _ => 0) 1 1 1 0 0 0
    hr (fun l => List.Perm.refl l) (List.length_replicate _ _) hcap
    (by norm_num) (by norm_num)
    (by intro w hw; rw [List.mem_singleton.mp hw]; norm_num)
    (by intro x y; norm_num) hmax32
    (by norm_num) (by norm_num) (by norm_num) (by norm_num)
  exact ⟨hr, hcap, hmax32, h.2⟩

end CAFinder
